import Mathlib

/-!
# Verification of the planner replication subsystem (`src/planner-replication.ts`)

Shallow embedding of the checkpoint-based replication protocol:

* A stored row (`Row`) is a record of one Prisma table row: the identity field
  (`id` in the source, either the column `id` or `uuid` depending on the
  collection), the entity-specific payload fields (abstracted as one opaque
  `payload` value that every handler moves around unchanged via object
  spread), `userId`, `serverTimestamp` and the soft-delete flag `deleted`.
* `serverTimestamp` (a JS `Date` in the source) is modelled as a `Nat`
  logical clock; Prisma `Date` comparison is `Nat` comparison.
* The identity field is a type parameter `Ident` with a linear order,
  modelling the database string collation used by Prisma `gt` filters and
  `orderBy`.
* Prisma `findMany({where, orderBy, take})` is modelled as
  filter, then sort by the `orderBy` relation, then `take`;
  `findUnique` as `List.find?` on the (userId, identity) key;
  `update`/`upsert` as the evident list transformations keyed by
  (userId, identity).  The two shapes of `whereClause` built by
  `handlePushRequest` (compound-unique-constraint lookup and plain
  field lookup) denote the same (userId, identity) key lookup and are
  embedded as the single function `findUnique`.
* `handlePushRequest` runs its row loop inside one transaction; the loop is
  embedded as a left fold of the per-intent step `pushStep` over the batch.
  Each call of `new Date()` during one push is modelled by the single
  parameter `now`.
-/

namespace PlannerReplication

variable {Ident : Type} [LinearOrder Ident]

/-- A wire document as exchanged with RxDB clients: the identity field, the
entity-specific payload (opaque), and the wire tombstone flag `_deleted`. -/
structure WireDoc (Ident : Type) where
  id : Ident
  payload : String
  _deleted : Bool
deriving Repr, DecidableEq

/-- A stored database row: identity, payload, owner (`userId`), the
server-assigned `serverTimestamp`, and the soft-delete flag `deleted`. -/
structure Row (Ident : Type) where
  id : Ident
  payload : String
  userId : String
  serverTimestamp : Nat
  deleted : Bool
deriving Repr, DecidableEq

/-- Pull-side (and conflict-comparison-side) decoding, lines 77-84 and
139-145 of the source: strip `userId`, `serverTimestamp` and `deleted` from
the row and emit the rest with `_deleted: deleted || false`. -/
def decodeRow (r : Row Ident) : WireDoc Ident :=
  { id := r.id, payload := r.payload, _deleted := r.deleted || false }

/-- Modelled from the spec: `utils/deepCompare` is imported by the push
handler but its source is not under `src/`; the spec describes it as
whole-document deep structural equality, which on this inductive document
type is structural equality. -/
def deepCompare (a b : WireDoc Ident) : Bool := a == b

/-- A pull checkpoint: the (identity, change-time) pair of the last
consumed row. -/
structure Checkpoint (Ident : Type) where
  id : Ident
  serverTimestamp : Nat
deriving Repr, DecidableEq

/-- The Prisma `where` clause of the checkpointed pull (lines 40-55 of the
source): `serverTimestamp > cp.serverTimestamp OR (serverTimestamp =
cp.serverTimestamp AND identity > cp.identity)`. -/
def afterCheckpoint (cp : Checkpoint Ident) (r : Row Ident) : Bool :=
  decide (cp.serverTimestamp < r.serverTimestamp) ||
    (r.serverTimestamp == cp.serverTimestamp && decide (cp.id < r.id))

/-- Prisma `findUnique` keyed by (userId, identity): both shapes of the
push handler's `whereClause` (with or without a named compound unique
constraint) denote this lookup. -/
def findUnique (db : List (Row Ident)) (userId : String) (id : Ident) :
    Option (Row Ident) :=
  db.find? (fun r => r.userId == userId && r.id == id)

/-- The pull `orderBy` relation: `[{serverTimestamp: asc}, {identity: asc}]`. -/
def rowLe (a b : Row Ident) : Prop :=
  a.serverTimestamp < b.serverTimestamp ∨
    (a.serverTimestamp = b.serverTimestamp ∧ a.id ≤ b.id)

instance : DecidableRel (@rowLe Ident _) := fun a b => by
  unfold rowLe; infer_instance

instance : IsTotal (Row Ident) rowLe where
  total a b := by
    rcases lt_trichotomy a.serverTimestamp b.serverTimestamp with h | h | h
    · exact Or.inl (Or.inl h)
    · rcases le_total a.id b.id with h2 | h2
      · exact Or.inl (Or.inr ⟨h, h2⟩)
      · exact Or.inr (Or.inr ⟨h.symm, h2⟩)
    · exact Or.inr (Or.inl h)

instance : IsTrans (Row Ident) rowLe where
  trans a b c hab hbc := by
    rcases hab with h1 | ⟨e1, l1⟩
    · rcases hbc with h2 | ⟨e2, l2⟩
      · exact Or.inl (h1.trans h2)
      · exact Or.inl (e2 ▸ h1)
    · rcases hbc with h2 | ⟨e2, l2⟩
      · exact Or.inl (e1 ▸ h2)
      · exact Or.inr ⟨e1.trans e2, l1.trans l2⟩

/-- The `findMany` of `handlePullRequest` (lines 38-67): the checkpointed
query when a `serverTimestamp` cursor was supplied, the plain owner query
otherwise; in both cases ordered by (serverTimestamp asc, identity asc) and
limited to `batchSize` rows. -/
def pullQuery (db : List (Row Ident)) (userId : String)
    (cp : Option (Checkpoint Ident)) (batchSize : Nat) : List (Row Ident) :=
  match cp with
  | some c =>
      (List.insertionSort rowLe
        (db.filter (fun r => r.userId == userId && afterCheckpoint c r))).take batchSize
  | none =>
      (List.insertionSort rowLe
        (db.filter (fun r => r.userId == userId))).take batchSize

/-- The pull response: decoded documents plus the new checkpoint. -/
structure PullResponse (Ident : Type) where
  documents : List (WireDoc Ident)
  checkpoint : Option (Checkpoint Ident)
deriving Repr, DecidableEq

/-- `handlePullRequest` (lines 16-95): run the query (batch size defaulting
to 10); on an empty result return no documents and the supplied checkpoint
unchanged (`null` when none was supplied); otherwise return the decoded
batch and a checkpoint taken from the last row of the batch. -/
def handlePullRequest (db : List (Row Ident)) (userId : String)
    (cp : Option (Checkpoint Ident)) (batchSize? : Option Nat) :
    PullResponse Ident :=
  let batchSize := batchSize?.getD 10
  let items := pullQuery db userId cp batchSize
  match items.getLast? with
  | none => { documents := [], checkpoint := cp }
  | some lastDoc =>
      { documents := items.map decodeRow,
        checkpoint := some { id := lastDoc.id, serverTimestamp := lastDoc.serverTimestamp } }

/-- Push-side encoding (lines 169-175): strip `_deleted` from the new
document state, attach `userId` and `deleted: false`.  The value of
`serverTimestamp` is Modelled from the spec: the Prisma schema (generated
client, not under `src/`) assigns the server clock on every accepted write
("server-assigned logical clock, strictly set on every accepted write"),
here the push-time instant `now`. -/
def encodeDoc (userId : String) (d : WireDoc Ident) (now : Nat) : Row Ident :=
  { id := d.id, payload := d.payload, userId := userId,
    serverTimestamp := now, deleted := false }

/-- One element of a push batch: the full new document state and the
optional assumed master state. -/
structure PushRow (Ident : Type) where
  newDocumentState : WireDoc Ident
  assumedMasterState : Option (WireDoc Ident)
deriving Repr, DecidableEq

/-- The soft-delete `collection.update` (lines 158-164): set
`deleted: true` and refresh `serverTimestamp` on the row keyed by
(userId, identity). -/
def softDeleteUpdate (db : List (Row Ident)) (userId : String) (id : Ident)
    (now : Nat) : List (Row Ident) :=
  db.map (fun r =>
    if r.userId == userId && r.id == id then
      { r with deleted := true, serverTimestamp := now }
    else r)

/-- The `collection.upsert` (lines 178-182): overwrite the row keyed by
(userId, identity) with the encoded data if present, else insert it. -/
def upsertRow (db : List (Row Ident)) (userId : String) (d : WireDoc Ident)
    (now : Nat) : List (Row Ident) :=
  let data := encodeDoc userId d now
  if (findUnique db userId d.id).isSome then
    db.map (fun r => if r.userId == userId && r.id == d.id then data else r)
  else
    db ++ [data]

/-- The apply part of one loop iteration (lines 154-182): a tombstoned new
state soft-deletes the row when one exists (and does nothing otherwise);
any other new state is encoded and upserted. -/
def applyIntent (userId : String) (now : Nat) (db : List (Row Ident))
    (found : Bool) (newDocumentState : WireDoc Ident) : List (Row Ident) :=
  if newDocumentState._deleted then
    if found then softDeleteUpdate db userId newDocumentState.id now else db
  else
    upsertRow db userId newDocumentState now

/-- One iteration of the push loop (lines 115-183): look up the stored row
by (userId, identity); if it exists, is accompanied by an
`assumedMasterState`, and its decoding differs from that assumed state,
record the decoded row as a conflict and skip the intent (`continue`);
otherwise apply the intent. -/
def pushStep (userId : String) (now : Nat) (db : List (Row Ident))
    (conflicts : List (WireDoc Ident)) (row : PushRow Ident) :
    List (Row Ident) × List (WireDoc Ident) :=
  let itemInDb := findUnique db userId row.newDocumentState.id
  match itemInDb, row.assumedMasterState with
  | some item, some assumedMasterState =>
      let itemDataForComparison := decodeRow item
      if !deepCompare itemDataForComparison assumedMasterState then
        (db, conflicts ++ [itemDataForComparison])
      else
        (applyIntent userId now db itemInDb.isSome row.newDocumentState, conflicts)
  | _, _ =>
      (applyIntent userId now db itemInDb.isSome row.newDocumentState, conflicts)

/-- The push loop over a batch, threading the database state and the
accumulated conflict list. -/
def pushLoop (userId : String) (now : Nat)
    (st : List (Row Ident) × List (WireDoc Ident)) (rows : List (PushRow Ident)) :
    List (Row Ident) × List (WireDoc Ident) :=
  rows.foldl (fun st row => pushStep userId now st.1 st.2 row) st

/-- `handlePushRequest` (lines 100-187): process each batch row in one
transaction, returning the final database state and the conflict list. -/
def handlePushRequest (userId : String) (now : Nat) (db : List (Row Ident))
    (rows : List (PushRow Ident)) : List (Row Ident) × List (WireDoc Ident) :=
  pushLoop userId now (db, []) rows

/-- The rows a pull over owner `userId` ranges over. -/
def ownerRows (db : List (Row Ident)) (userId : String) : List (Row Ident) :=
  db.filter (fun r => r.userId == userId)

/-- Whether a row qualifies for a pull with the given optional checkpoint. -/
def matchesCp (cp : Option (Checkpoint Ident)) (r : Row Ident) : Bool :=
  match cp with
  | none => true
  | some c => afterCheckpoint c r

/-- The full (untruncated) ordered result set of a pull. -/
def sortedPull (db : List (Row Ident)) (userId : String)
    (cp : Option (Checkpoint Ident)) : List (Row Ident) :=
  List.insertionSort rowLe
    (db.filter (fun r => r.userId == userId && matchesCp cp r))

/-- Identities are pairwise distinct: the per-owner uniqueness constraint
on the identity column. -/
def distinctIds (l : List (Row Ident)) : Prop :=
  l.Pairwise (fun a b => a.id ≠ b.id)

/-- Repeated pulls, feeding each returned checkpoint into the next pull,
collecting the document batches until an empty batch is returned
(fuel-bounded). -/
def pullTraceAux (db : List (Row Ident)) (userId : String) (batchSize : Nat) :
    Nat → Option (Checkpoint Ident) → List (List (WireDoc Ident))
  | 0, _ => []
  | fuel + 1, cp =>
      let res := handlePullRequest db userId cp (some batchSize)
      if res.documents.isEmpty then [[]]
      else res.documents :: pullTraceAux db userId batchSize fuel res.checkpoint

/-- A full sync round: repeated pulls starting from no checkpoint. -/
def pullTrace (db : List (Row Ident)) (userId : String) (batchSize : Nat) :
    List (List (WireDoc Ident)) :=
  pullTraceAux db userId batchSize (db.length + 1) none

/-! ## Supporting lemmas about the store operations -/

/-- `findUnique` commutes with a row-wise map that preserves the key
fields `userId` and `id`. -/
lemma findUnique_map_overwrite (db : List (Row Ident)) (g : Row Ident → Row Ident)
    (hg : ∀ r, (g r).userId = r.userId ∧ (g r).id = r.id) (u' : String) (i : Ident) :
    findUnique (db.map g) u' i = (findUnique db u' i).map g := by
  unfold findUnique
  rw [List.find?_map]
  have hpf : ((fun r : Row Ident => r.userId == u' && r.id == i) ∘ g) =
      (fun r : Row Ident => r.userId == u' && r.id == i) := by
    funext r
    simp only [Function.comp_apply, (hg r).1, (hg r).2]
  rw [hpf]

lemma findUnique_append (db l₂ : List (Row Ident)) (u' : String) (i : Ident) :
    findUnique (db ++ l₂) u' i = (findUnique db u' i).or (findUnique l₂ u' i) := by
  unfold findUnique
  exact List.find?_append

/-- The function the upsert maps over the store preserves the key fields. -/
lemma upsert_map_preserves_key (u : String) (d : WireDoc Ident) (now : Nat) :
    ∀ r : Row Ident,
      ((if r.userId == u && r.id == d.id then encodeDoc u d now else r).userId = r.userId ∧
       (if r.userId == u && r.id == d.id then encodeDoc u d now else r).id = r.id) := by
  intro r
  by_cases hc : (r.userId == u && r.id == d.id) = true
  · rw [if_pos hc]
    have h1 : r.userId = u := by
      have := (Bool.and_eq_true _ _).mp hc
      exact eq_of_beq this.1
    have h2 : r.id = d.id := by
      have := (Bool.and_eq_true _ _).mp hc
      exact eq_of_beq this.2
    exact ⟨by rw [encodeDoc, h1], by rw [encodeDoc, h2]⟩
  · rw [if_neg hc]
    exact ⟨rfl, rfl⟩

lemma findUnique_upsert_self (db : List (Row Ident)) (u : String)
    (d : WireDoc Ident) (now : Nat) :
    findUnique (upsertRow db u d now) u d.id = some (encodeDoc u d now) := by
  unfold upsertRow
  by_cases h : (findUnique db u d.id).isSome
  · rw [if_pos h]
    rw [findUnique_map_overwrite db _ (upsert_map_preserves_key u d now) u d.id]
    obtain ⟨item, hitem⟩ := Option.isSome_iff_exists.mp h
    rw [hitem]
    have hitem2 : List.find? (fun r : Row Ident => r.userId == u && r.id == d.id) db =
        some item := hitem
    have hp := List.find?_some hitem2
    simp only [Option.map_some']
    rw [if_pos hp]
  · rw [if_neg h]
    rw [findUnique_append]
    rw [Option.not_isSome_iff_eq_none.mp h]
    simp [findUnique, encodeDoc]

lemma pushStep_of_no_assumed (u : String) (now : Nat) (db : List (Row Ident))
    (cs : List (WireDoc Ident)) (r : PushRow Ident)
    (hnoasm : r.assumedMasterState = none) :
    pushStep u now db cs r =
      (applyIntent u now db (findUnique db u r.newDocumentState.id).isSome
        r.newDocumentState, cs) := by
  unfold pushStep
  rw [hnoasm]
  cases hf : findUnique db u r.newDocumentState.id <;> simp [hf]

/-! ## Supporting lemmas about the pull ordering -/

lemma mem_of_getLast?_eq_some {α : Type _} {l : List α} {x : α}
    (h : l.getLast? = some x) : x ∈ l := by
  have hx : x ∈ l.getLast? := by rw [h]; rfl
  obtain ⟨hne, he⟩ := List.mem_getLast?_eq_getLast hx
  rw [he]
  exact List.getLast_mem hne

lemma rowLe_refl (a : Row Ident) : rowLe a a := Or.inr ⟨rfl, le_refl _⟩

lemma rowLe_antisymm_key {a b : Row Ident} (h1 : rowLe a b) (h2 : rowLe b a) :
    a.serverTimestamp = b.serverTimestamp ∧ a.id = b.id := by
  rcases h1 with h1 | ⟨e1, l1⟩ <;> rcases h2 with h2 | ⟨e2, l2⟩
  · exact absurd (h1.trans h2) (lt_irrefl _)
  · exact absurd h1 (by omega)
  · exact absurd h2 (by omega)
  · exact ⟨e1, le_antisymm l1 l2⟩

lemma afterCheckpoint_iff (c : Checkpoint Ident) (r : Row Ident) :
    afterCheckpoint c r = true ↔
      (c.serverTimestamp < r.serverTimestamp ∨
        (c.serverTimestamp = r.serverTimestamp ∧ c.id < r.id)) := by
  unfold afterCheckpoint
  rw [Bool.or_eq_true, Bool.and_eq_true, decide_eq_true_eq, decide_eq_true_eq,
    beq_iff_eq]
  constructor
  · rintro (h | ⟨h1, h2⟩)
    · exact Or.inl h
    · exact Or.inr ⟨h1.symm, h2⟩
  · rintro (h | ⟨h1, h2⟩)
    · exact Or.inl h
    · exact Or.inr ⟨h1.symm, h2⟩

/-- A row that sorts no later than `y` does not pass the checkpoint taken
from `y`. -/
lemma not_after_of_rowLe {x y : Row Ident} (h : rowLe x y) :
    afterCheckpoint ⟨y.id, y.serverTimestamp⟩ x = false := by
  rw [Bool.eq_false_iff]
  intro hc
  rw [afterCheckpoint_iff] at hc
  dsimp only at hc
  rcases h with h | ⟨e, l⟩ <;> rcases hc with hc | ⟨e2, l2⟩
  · exact absurd (h.trans hc) (lt_irrefl _)
  · exact absurd h (by omega)
  · exact absurd hc (by omega)
  · exact absurd (lt_of_le_of_lt l l2) (lt_irrefl _)

/-- A row that sorts at least like `y` but carries a different identity
passes the checkpoint taken from `y`. -/
lemma after_of_rowLe_ne {x y : Row Ident} (h : rowLe y x) (hne : y.id ≠ x.id) :
    afterCheckpoint ⟨y.id, y.serverTimestamp⟩ x = true := by
  rw [afterCheckpoint_iff]
  rcases h with h | ⟨e, l⟩
  · exact Or.inl h
  · exact Or.inr ⟨e, lt_of_le_of_ne l hne⟩

/-- Passing the checkpoint taken from a row `y` that itself qualifies for
`cp` implies qualifying for `cp`. -/
lemma matchesCp_of_after {cp : Option (Checkpoint Ident)} {x y : Row Ident}
    (hy : matchesCp cp y = true)
    (hx : afterCheckpoint ⟨y.id, y.serverTimestamp⟩ x = true) :
    matchesCp cp x = true := by
  cases cp with
  | none => rfl
  | some c =>
      unfold matchesCp at hy ⊢
      rw [afterCheckpoint_iff] at hy hx ⊢
      dsimp only at hx
      rcases hy with hy | ⟨e1, l1⟩ <;> rcases hx with hx | ⟨e2, l2⟩
      · exact Or.inl (by omega)
      · exact Or.inl (by omega)
      · exact Or.inl (by omega)
      · exact Or.inr ⟨by omega, l1.trans l2⟩

/-- In a sorted list every member sorts no later than the last element. -/
lemma rowLe_getLast_of_sorted {l : List (Row Ident)} (hs : l.Sorted rowLe) :
    ∀ x ∈ l, ∀ lst, l.getLast? = some lst → rowLe x lst := by
  induction l with
  | nil => intro x hx; cases hx
  | cons a t ih =>
      intro x hx lst hlst
      cases t with
      | nil =>
          simp only [List.mem_singleton] at hx
          simp only [List.getLast?_singleton, Option.some.injEq] at hlst
          subst hx; subst hlst; exact rowLe_refl _
      | cons b t2 =>
          rw [List.getLast?_cons_cons] at hlst
          have hmem : lst ∈ b :: t2 := mem_of_getLast?_eq_some hlst
          rcases List.mem_cons.mp hx with rfl | hx2
          · exact (List.sorted_cons.mp hs).1 lst hmem
          · exact ih (List.sorted_cons.mp hs).2 x hx2 lst hlst

lemma distinctIds_perm {l₁ l₂ : List (Row Ident)} (hp : l₁.Perm l₂)
    (hd : distinctIds l₁) : distinctIds l₂ :=
  (List.Perm.pairwise_iff (fun h => Ne.symm h) hp).mp hd

lemma sortedPull_sorted (db : List (Row Ident)) (u : String)
    (cp : Option (Checkpoint Ident)) : (sortedPull db u cp).Sorted rowLe :=
  List.sorted_insertionSort _ _

lemma sortedPull_perm (db : List (Row Ident)) (u : String)
    (cp : Option (Checkpoint Ident)) :
    (sortedPull db u cp).Perm
      (db.filter (fun r => r.userId == u && matchesCp cp r)) :=
  List.perm_insertionSort _ _

lemma pullQuery_eq_take (db : List (Row Ident)) (u : String)
    (cp : Option (Checkpoint Ident)) (bs : Nat) :
    pullQuery db u cp bs = (sortedPull db u cp).take bs := by
  cases cp with
  | none => simp [pullQuery, sortedPull, matchesCp]
  | some c => rfl

lemma filter_pull_eq (db : List (Row Ident)) (u : String)
    (cp : Option (Checkpoint Ident)) :
    db.filter (fun r => r.userId == u && matchesCp cp r) =
      (ownerRows db u).filter (fun r => matchesCp cp r) := by
  unfold ownerRows
  rw [List.filter_filter]
  apply List.filter_congr
  intro x _
  exact Bool.and_comm _ _

lemma distinctIds_sortedPull (db : List (Row Ident)) (u : String)
    (cp : Option (Checkpoint Ident)) (hd : distinctIds (ownerRows db u)) :
    distinctIds (sortedPull db u cp) := by
  apply distinctIds_perm (sortedPull_perm db u cp).symm
  rw [filter_pull_eq]
  exact List.Pairwise.sublist (List.filter_sublist _) hd

/-- Unfolding of the pull handler in terms of the executed query. -/
lemma handlePullRequest_eq (db : List (Row Ident)) (u : String)
    (cp : Option (Checkpoint Ident)) (bs? : Option Nat) :
    handlePullRequest db u cp bs? =
      match (pullQuery db u cp (bs?.getD 10)).getLast? with
      | none => ⟨[], cp⟩
      | some lastDoc =>
          ⟨(pullQuery db u cp (bs?.getD 10)).map decodeRow,
            some ⟨lastDoc.id, lastDoc.serverTimestamp⟩⟩ := rfl

/-! ## C1: batch atomicity -/

/-- C1 counterexample: on a store holding only the row (owner "u",
identity 1, payload "X"), a batch whose first intent conflicts (its assumed
state "WRONG" differs from the stored "X") and whose second intent creates
identity 2 yields a non-empty conflict list AND a changed store for
identity 2 — refuting "if any intent conflicts, no intent in that batch is
applied". -/
theorem C1_counterexample :
    (handlePushRequest "u" 5 ([⟨1, "X", "u", 1, false⟩] : List (Row Nat))
        [⟨⟨1, "Y", false⟩, some ⟨1, "WRONG", false⟩⟩, ⟨⟨2, "Z", false⟩, none⟩]).2 ≠ [] ∧
      findUnique (handlePushRequest "u" 5 ([⟨1, "X", "u", 1, false⟩] : List (Row Nat))
        [⟨⟨1, "Y", false⟩, some ⟨1, "WRONG", false⟩⟩, ⟨⟨2, "Z", false⟩, none⟩]).1 "u" 2 ≠
      findUnique ([⟨1, "X", "u", 1, false⟩] : List (Row Nat)) "u" 2 := by
  decide

/-- C1 (amended): if the conflict check records a conflict for an intent,
that intent is not applied — its processing step leaves the stored state
unchanged; a conflict does not prevent the remaining intents of the batch
from being processed and applied. -/
theorem C1_conflicting_intent_not_applied (u : String) (now : Nat)
    (db : List (Row Ident)) (cs : List (WireDoc Ident)) (row : PushRow Ident)
    (h : (pushStep u now db cs row).2 ≠ cs) :
    (pushStep u now db cs row).1 = db := by
  unfold pushStep at h ⊢
  cases hf : findUnique db u row.newDocumentState.id with
  | none => simp [hf] at h
  | some item =>
      cases ha : row.assumedMasterState with
      | none => simp [hf, ha] at h
      | some assumed =>
          simp only [hf, ha]
          by_cases hc : (!deepCompare (decodeRow item) assumed) = true
          · simp [hc]
          · simp [hf, ha, hc] at h

theorem C1_witness :
    (pushStep "u" 5 ([⟨1, "X", "u", 1, false⟩] : List (Row Nat)) []
      ⟨⟨1, "Y", false⟩, some ⟨1, "WRONG", false⟩⟩).1 =
      ([⟨1, "X", "u", 1, false⟩] : List (Row Nat)) :=
  C1_conflicting_intent_not_applied "u" 5 [⟨1, "X", "u", 1, false⟩] []
    ⟨⟨1, "Y", false⟩, some ⟨1, "WRONG", false⟩⟩ (by decide)

/-! ## C7: codec round-trip -/

/-- C7 counterexample: the tombstoned wire document (identity 1, payload
"X", `_deleted: true`) is a valid wire document, but the push-side encoding
forces `deleted: false`, so decoding its encoding clears the flag and does
not return the document — refuting `decode(encode(x)) = x` for every valid
wire document. -/
theorem C7_counterexample :
    decodeRow (encodeDoc "u" (⟨1, "X", true⟩ : WireDoc Nat) 5) ≠
      (⟨1, "X", true⟩ : WireDoc Nat) := by
  decide

/-- C7 (amended): decoding the encoding of a wire document returns the
document with the tombstone flag cleared; hence `decode ∘ encode` is the
identity exactly on the wire documents whose tombstone flag is false — the
only documents the push handler ever passes to the encoder. -/
theorem C7_roundtrip {I2 : Type} (u : String) (now : Nat) (d : WireDoc I2) :
    decodeRow (encodeDoc u d now) = { d with _deleted := false } ∧
      (d._deleted = false → decodeRow (encodeDoc u d now) = d) := by
  constructor
  · cases d; simp [decodeRow, encodeDoc]
  · intro h; cases d; simp_all [decodeRow, encodeDoc]

theorem C7_witness :
    decodeRow (encodeDoc "u" (⟨1, "X", false⟩ : WireDoc Nat) 5) =
      { (⟨1, "X", false⟩ : WireDoc Nat) with _deleted := false } ∧
      ((⟨1, "X", false⟩ : WireDoc Nat)._deleted = false →
        decodeRow (encodeDoc "u" (⟨1, "X", false⟩ : WireDoc Nat) 5) =
          (⟨1, "X", false⟩ : WireDoc Nat)) :=
  C7_roundtrip "u" 5 ⟨1, "X", false⟩

/-! ## C9: no assumed state never conflicts; last-write-wins -/

/-- C9: an intent carrying no `assumedMasterState` never has a conflict
recorded for it (its step leaves the conflict list unchanged, whatever is
stored), and when its new state is not a tombstone the stored row for its
(owner, identity) afterwards is exactly the encoded new state —
unconditional overwrite. -/
theorem C9_no_assumed_never_conflicts (u : String) (now : Nat)
    (db : List (Row Ident)) (cs : List (WireDoc Ident)) (r : PushRow Ident)
    (hnoasm : r.assumedMasterState = none) :
    (pushStep u now db cs r).2 = cs ∧
      (r.newDocumentState._deleted = false →
        findUnique (pushStep u now db cs r).1 u r.newDocumentState.id =
          some (encodeDoc u r.newDocumentState now)) := by
  rw [pushStep_of_no_assumed u now db cs r hnoasm]
  refine ⟨rfl, fun hdel => ?_⟩
  unfold applyIntent
  rw [hdel]
  simp only [Bool.false_eq_true, if_false]
  exact findUnique_upsert_self db u r.newDocumentState now

theorem C9_witness :
    (pushStep "u" 5 ([⟨1, "X", "u", 1, false⟩] : List (Row Nat)) []
        ⟨⟨1, "Y", false⟩, none⟩).2 = [] ∧
      ((⟨1, "Y", false⟩ : WireDoc Nat)._deleted = false →
        findUnique (pushStep "u" 5 ([⟨1, "X", "u", 1, false⟩] : List (Row Nat)) []
            ⟨⟨1, "Y", false⟩, none⟩).1 "u" 1 =
          some (encodeDoc "u" ⟨1, "Y", false⟩ 5)) :=
  C9_no_assumed_never_conflicts "u" 5 [⟨1, "X", "u", 1, false⟩] []
    ⟨⟨1, "Y", false⟩, none⟩ rfl

/-! ## C10: tombstone for an absent row is a no-op -/

/-- C10: an intent whose new state is tombstoned and for whose
(owner, identity) no stored row exists changes nothing: the store is left
exactly as it was and no conflict is recorded. -/
theorem C10_tombstone_absent_noop (u : String) (now : Nat)
    (db : List (Row Ident)) (cs : List (WireDoc Ident)) (r : PushRow Ident)
    (hdel : r.newDocumentState._deleted = true)
    (habsent : findUnique db u r.newDocumentState.id = none) :
    pushStep u now db cs r = (db, cs) := by
  unfold pushStep
  rw [habsent]
  simp [applyIntent, hdel]

theorem C10_witness :
    pushStep "u" 5 ([⟨1, "X", "u", 1, false⟩] : List (Row Nat)) []
        ⟨⟨2, "Z", true⟩, none⟩ =
      (([⟨1, "X", "u", 1, false⟩] : List (Row Nat)), []) :=
  C10_tombstone_absent_noop "u" 5 [⟨1, "X", "u", 1, false⟩] []
    ⟨⟨2, "Z", true⟩, none⟩ rfl (by decide)

/-! ## C2: pull selection, ordering and truncation -/

/-- C2: the pull documents are the decoded query result; the query result
contains only the owner's stored rows that pass the checkpoint condition
(`serverTimestamp > cp.serverTimestamp` or equal `serverTimestamp` with
greater identity; every row when no checkpoint is supplied); it is sorted
by (serverTimestamp asc, identity asc) and holds at most the batch size
(default 10) rows; and any qualifying row left out only ever falls victim
to truncation: the batch is then full and every selected row sorts no
later than the omitted row. -/
theorem C2_pull_selection (db : List (Row Ident)) (u : String)
    (cp : Option (Checkpoint Ident)) (bs? : Option Nat) :
    (handlePullRequest db u cp bs?).documents =
        (pullQuery db u cp (bs?.getD 10)).map decodeRow ∧
      (∀ r ∈ pullQuery db u cp (bs?.getD 10),
        r ∈ db ∧ r.userId = u ∧ matchesCp cp r = true) ∧
      (pullQuery db u cp (bs?.getD 10)).Sorted rowLe ∧
      (pullQuery db u cp (bs?.getD 10)).length ≤ bs?.getD 10 ∧
      (∀ r ∈ db, r.userId = u → matchesCp cp r = true →
        r ∉ pullQuery db u cp (bs?.getD 10) →
        (pullQuery db u cp (bs?.getD 10)).length = bs?.getD 10 ∧
          ∀ s ∈ pullQuery db u cp (bs?.getD 10), rowLe s r) := by
  refine ⟨?_, ?_, ?_, ?_, ?_⟩
  · rw [handlePullRequest_eq]
    cases hl : (pullQuery db u cp (bs?.getD 10)).getLast? with
    | none =>
        have hnil := List.getLast?_eq_none_iff.mp hl
        simp [hnil]
    | some lastDoc => simp
  · intro r hr
    rw [pullQuery_eq_take] at hr
    have hr2 : r ∈ sortedPull db u cp := List.take_subset _ _ hr
    have hr3 := (sortedPull_perm db u cp).subset hr2
    have hr4 := List.mem_filter.mp hr3
    obtain ⟨h5, h6⟩ := (Bool.and_eq_true _ _).mp hr4.2
    exact ⟨hr4.1, eq_of_beq h5, h6⟩
  · rw [pullQuery_eq_take]
    exact List.Pairwise.sublist (List.take_sublist _ _) (sortedPull_sorted db u cp)
  · rw [pullQuery_eq_take]
    exact List.length_take_le _ _
  · intro r hrdb hru hrcp hrnot
    rw [pullQuery_eq_take] at hrnot ⊢
    have hrfil : r ∈ db.filter (fun r => r.userId == u && matchesCp cp r) :=
      List.mem_filter.mpr ⟨hrdb, by rw [Bool.and_eq_true, beq_iff_eq]; exact ⟨hru, hrcp⟩⟩
    have hrS : r ∈ sortedPull db u cp := (sortedPull_perm db u cp).mem_iff.mpr hrfil
    have hsplit := List.take_append_drop (bs?.getD 10) (sortedPull db u cp)
    have hrdrop : r ∈ (sortedPull db u cp).drop (bs?.getD 10) := by
      rcases List.mem_append.mp (by rw [hsplit]; exact hrS) with h | h
      · exact absurd h hrnot
      · exact h
    have hlen : bs?.getD 10 < (sortedPull db u cp).length := by
      by_contra hle
      rw [not_lt] at hle
      rw [List.drop_eq_nil_iff.mpr hle] at hrdrop
      cases hrdrop
    constructor
    · rw [List.length_take]
      omega
    · intro s hs
      have hpw : ((sortedPull db u cp).take (bs?.getD 10) ++
          (sortedPull db u cp).drop (bs?.getD 10)).Pairwise rowLe := by
        rw [hsplit]
        exact sortedPull_sorted db u cp
      exact ((List.pairwise_append.mp hpw).2.2) s hs r hrdrop

theorem C2_witness :
    (handlePullRequest ([⟨2, "Y", "u", 1, false⟩, ⟨1, "X", "u", 1, false⟩] : List (Row Nat))
        "u" none (some 1)).documents =
        (pullQuery ([⟨2, "Y", "u", 1, false⟩, ⟨1, "X", "u", 1, false⟩] : List (Row Nat))
          "u" none ((some 1).getD 10)).map decodeRow ∧
      (∀ r ∈ pullQuery ([⟨2, "Y", "u", 1, false⟩, ⟨1, "X", "u", 1, false⟩] : List (Row Nat))
          "u" none ((some 1).getD 10),
        r ∈ ([⟨2, "Y", "u", 1, false⟩, ⟨1, "X", "u", 1, false⟩] : List (Row Nat)) ∧
          r.userId = "u" ∧ matchesCp none r = true) ∧
      (pullQuery ([⟨2, "Y", "u", 1, false⟩, ⟨1, "X", "u", 1, false⟩] : List (Row Nat))
        "u" none ((some 1).getD 10)).Sorted rowLe ∧
      (pullQuery ([⟨2, "Y", "u", 1, false⟩, ⟨1, "X", "u", 1, false⟩] : List (Row Nat))
        "u" none ((some 1).getD 10)).length ≤ (some 1).getD 10 ∧
      (∀ r ∈ ([⟨2, "Y", "u", 1, false⟩, ⟨1, "X", "u", 1, false⟩] : List (Row Nat)),
        r.userId = "u" → matchesCp none r = true →
        r ∉ pullQuery ([⟨2, "Y", "u", 1, false⟩, ⟨1, "X", "u", 1, false⟩] : List (Row Nat))
          "u" none ((some 1).getD 10) →
        (pullQuery ([⟨2, "Y", "u", 1, false⟩, ⟨1, "X", "u", 1, false⟩] : List (Row Nat))
          "u" none ((some 1).getD 10)).length = (some 1).getD 10 ∧
          ∀ s ∈ pullQuery ([⟨2, "Y", "u", 1, false⟩, ⟨1, "X", "u", 1, false⟩] : List (Row Nat))
            "u" none ((some 1).getD 10), rowLe s r) :=
  C2_pull_selection [⟨2, "Y", "u", 1, false⟩, ⟨1, "X", "u", 1, false⟩] "u" none (some 1)

/-! ## C4: returned checkpoint -/

/-- C4: when no stored row of the owner qualifies — and more generally
whenever the selected row set is empty — the pull returns no documents and
the supplied checkpoint unchanged (`none` when none was supplied); when the
selection is non-empty the pull returns its decoding together with the
(identity, serverTimestamp) checkpoint taken from the selection's last
row. -/
theorem C4_pull_checkpoint (db : List (Row Ident)) (u : String)
    (cp : Option (Checkpoint Ident)) (bs? : Option Nat) :
    ((∀ r ∈ db, ¬(r.userId = u ∧ matchesCp cp r = true)) →
      handlePullRequest db u cp bs? = ⟨[], cp⟩) ∧
      (pullQuery db u cp (bs?.getD 10) = [] →
        handlePullRequest db u cp bs? = ⟨[], cp⟩) ∧
      (∀ lastDoc, (pullQuery db u cp (bs?.getD 10)).getLast? = some lastDoc →
        handlePullRequest db u cp bs? =
          ⟨(pullQuery db u cp (bs?.getD 10)).map decodeRow,
            some ⟨lastDoc.id, lastDoc.serverTimestamp⟩⟩) := by
  have hempty : (pullQuery db u cp (bs?.getD 10) = []) →
      handlePullRequest db u cp bs? = ⟨[], cp⟩ := by
    intro h
    rw [handlePullRequest_eq, h]
    rfl
  refine ⟨?_, hempty, ?_⟩
  · intro hnone
    apply hempty
    rw [pullQuery_eq_take]
    have hfil : db.filter (fun r => r.userId == u && matchesCp cp r) = [] := by
      rw [List.filter_eq_nil_iff]
      intro a ha
      rw [Bool.and_eq_true, beq_iff_eq]
      intro hc
      exact hnone a ha hc
    have hS : sortedPull db u cp = [] :=
      List.Perm.eq_nil (by rw [← hfil] at *; exact (sortedPull_perm db u cp).trans (hfil ▸ List.Perm.refl _))
    rw [hS, List.take_nil]
  · intro lastDoc hlast
    rw [handlePullRequest_eq, hlast]

theorem C4_witness :
    ((∀ r ∈ ([⟨1, "X", "u", 3, false⟩] : List (Row Nat)), ¬(r.userId = "u" ∧
        matchesCp (some ⟨1, 3⟩) r = true)) →
      handlePullRequest ([⟨1, "X", "u", 3, false⟩] : List (Row Nat)) "u"
          (some ⟨1, 3⟩) none = ⟨[], some ⟨1, 3⟩⟩) ∧
      (pullQuery ([⟨1, "X", "u", 3, false⟩] : List (Row Nat)) "u"
          (some ⟨1, 3⟩) (none.getD 10) = [] →
        handlePullRequest ([⟨1, "X", "u", 3, false⟩] : List (Row Nat)) "u"
          (some ⟨1, 3⟩) none = ⟨[], some ⟨1, 3⟩⟩) ∧
      (∀ lastDoc, (pullQuery ([⟨1, "X", "u", 3, false⟩] : List (Row Nat)) "u"
          (some ⟨1, 3⟩) (none.getD 10)).getLast? = some lastDoc →
        handlePullRequest ([⟨1, "X", "u", 3, false⟩] : List (Row Nat)) "u"
            (some ⟨1, 3⟩) none =
          ⟨(pullQuery ([⟨1, "X", "u", 3, false⟩] : List (Row Nat)) "u"
              (some ⟨1, 3⟩) (none.getD 10)).map decodeRow,
            some ⟨lastDoc.id, lastDoc.serverTimestamp⟩⟩) :=
  C4_pull_checkpoint [⟨1, "X", "u", 3, false⟩] "u" (some ⟨1, 3⟩) none

/-! ## C3: pull completeness and no duplication -/

/-- Two sorted permutations of each other with pairwise-distinct identities
are equal: the (serverTimestamp, identity) sort key is unique within one
owner's rows, so the sorted qualifying list is determined. -/
lemma eq_of_perm_sorted_distinct :
    ∀ {l₁ l₂ : List (Row Ident)}, l₁.Perm l₂ → l₁.Sorted rowLe →
      l₂.Sorted rowLe → distinctIds l₁ → l₁ = l₂ := by
  intro l₁
  induction l₁ with
  | nil =>
      intro l₂ hp _ _ _
      exact (List.Perm.eq_nil hp.symm).symm
  | cons a t ih =>
      intro l₂ hp hs₁ hs₂ hd
      cases l₂ with
      | nil => exact absurd hp.eq_nil (List.cons_ne_nil a t)
      | cons b t₂ =>
          have hb_mem : b ∈ a :: t := hp.symm.subset (List.mem_cons_self b t₂)
          rcases List.mem_cons.mp hb_mem with hba | hbt
          · subst hba
            have ht : t.Perm t₂ := hp.cons_inv
            rw [ih ht hs₁.of_cons hs₂.of_cons hd.of_cons]
          · have hab : rowLe a b := (List.sorted_cons.mp hs₁).1 b hbt
            have ha_mem : a ∈ b :: t₂ := hp.subset (List.mem_cons_self a t)
            have hba2 : rowLe b a := by
              rcases List.mem_cons.mp ha_mem with haa | hat
              · rw [haa]; exact rowLe_refl b
              · exact (List.sorted_cons.mp hs₂).1 a hat
            have hkey := rowLe_antisymm_key hab hba2
            have hne : a.id ≠ b.id := (List.pairwise_cons.mp hd).1 b hbt
            exact absurd hkey.2 hne

/-- Filtering a sorted distinct-identity list by the checkpoint taken from
the last element of its `bs`-prefix yields exactly the remainder of the
list. -/
lemma filter_after_getLast_take {S : List (Row Ident)} (hs : S.Sorted rowLe)
    (hd : distinctIds S) {bs : Nat} {y : Row Ident}
    (hlast : (S.take bs).getLast? = some y) :
    S.filter (afterCheckpoint ⟨y.id, y.serverTimestamp⟩) = S.drop bs := by
  have hy_take : y ∈ S.take bs := mem_of_getLast?_eq_some hlast
  have hpw : (S.take bs ++ S.drop bs).Pairwise rowLe := by
    rw [List.take_append_drop]; exact hs
  have hdw : (S.take bs ++ S.drop bs).Pairwise (fun a b => a.id ≠ b.id) := by
    rw [List.take_append_drop]; exact hd
  have h1 : (S.take bs).filter (afterCheckpoint ⟨y.id, y.serverTimestamp⟩) = [] := by
    rw [List.filter_eq_nil_iff]
    intro a ha
    have hsorted_take : (S.take bs).Sorted rowLe :=
      List.Pairwise.sublist (List.take_sublist _ _) hs
    have hle := rowLe_getLast_of_sorted hsorted_take a ha y hlast
    rw [not_after_of_rowLe hle]
    simp
  have h2 : (S.drop bs).filter (afterCheckpoint ⟨y.id, y.serverTimestamp⟩) =
      S.drop bs := by
    rw [List.filter_eq_self]
    intro a ha
    have hyx : rowLe y a := (List.pairwise_append.mp hpw).2.2 y hy_take a ha
    have hne : y.id ≠ a.id := (List.pairwise_append.mp hdw).2.2 y hy_take a ha
    exact after_of_rowLe_ne hyx hne
  conv_lhs => rw [← List.take_append_drop bs S]
  rw [List.filter_append, h1, h2, List.nil_append]

/-- Replacing the checkpoint by one whose condition implies the old one
turns the full sorted pull into a filter of the old one. -/
lemma sortedPull_step (db : List (Row Ident)) (u : String)
    (cp : Option (Checkpoint Ident)) (c' : Checkpoint Ident)
    (hImp : ∀ r : Row Ident, afterCheckpoint c' r = true → matchesCp cp r = true)
    (hd : distinctIds (ownerRows db u)) :
    sortedPull db u (some c') =
      (sortedPull db u cp).filter (afterCheckpoint c') := by
  apply eq_of_perm_sorted_distinct
  · have p1 := sortedPull_perm db u (some c')
    have e1 : db.filter (fun r => r.userId == u && matchesCp (some c') r) =
        db.filter (fun r =>
          (r.userId == u && matchesCp cp r) && afterCheckpoint c' r) := by
      apply List.filter_congr
      intro x _
      show (x.userId == u && afterCheckpoint c' x) = _
      cases hu : x.userId == u with
      | false => simp
      | true =>
          cases hc : afterCheckpoint c' x with
          | false => simp [hc]
          | true => simp [hc, hImp x hc]
    have e2 : db.filter (fun r =>
          (r.userId == u && matchesCp cp r) && afterCheckpoint c' r) =
        (db.filter (fun r => r.userId == u && matchesCp cp r)).filter
          (afterCheckpoint c') := by
      rw [List.filter_filter]
      apply List.filter_congr
      intro x _
      exact (Bool.and_comm _ _).symm ▸ Bool.and_comm _ _
    have p2 := List.Perm.filter (afterCheckpoint c') (sortedPull_perm db u cp)
    rw [e1, e2] at p1
    exact p1.trans p2.symm
  · exact sortedPull_sorted db u (some c')
  · exact List.Pairwise.sublist (List.filter_sublist _) (sortedPull_sorted db u cp)
  · exact distinctIds_sortedPull db u (some c') hd

/-- Consuming one batch advances the checkpoint past exactly that batch:
the qualifying sorted rows for the returned checkpoint are the remainder
after the batch. -/
lemma sortedPull_advance (db : List (Row Ident)) (u : String)
    (cp : Option (Checkpoint Ident)) (bs : Nat) (hd : distinctIds (ownerRows db u))
    {y : Row Ident} (hlast : ((sortedPull db u cp).take bs).getLast? = some y) :
    sortedPull db u (some ⟨y.id, y.serverTimestamp⟩) =
      (sortedPull db u cp).drop bs := by
  have hy_take : y ∈ (sortedPull db u cp).take bs := mem_of_getLast?_eq_some hlast
  have hy_mem : y ∈ sortedPull db u cp := List.take_subset _ _ hy_take
  have hyq : matchesCp cp y = true := by
    have h3 := (sortedPull_perm db u cp).subset hy_mem
    have h4 := List.mem_filter.mp h3
    exact ((Bool.and_eq_true _ _).mp h4.2).2
  rw [sortedPull_step db u cp ⟨y.id, y.serverTimestamp⟩
    (fun r hr => matchesCp_of_after hyq hr) hd]
  exact filter_after_getLast_take (sortedPull_sorted db u cp)
    (distinctIds_sortedPull db u cp hd) hlast

/-- Unfolding of one round of the pull iteration. -/
lemma pullTraceAux_succ (db : List (Row Ident)) (u : String) (bs fuel : Nat)
    (cp : Option (Checkpoint Ident)) :
    pullTraceAux db u bs (fuel + 1) cp =
      if (handlePullRequest db u cp (some bs)).documents.isEmpty then [[]]
      else (handlePullRequest db u cp (some bs)).documents ::
        pullTraceAux db u bs fuel (handlePullRequest db u cp (some bs)).checkpoint := rfl

/-- With enough fuel the iterated pull delivers exactly the decoded sorted
qualifying rows and ends with an empty batch. -/
lemma pullTraceAux_spec (db : List (Row Ident)) (u : String) (bs : Nat)
    (hbs : 0 < bs) (hd : distinctIds (ownerRows db u)) :
    ∀ fuel (cp : Option (Checkpoint Ident)),
      (sortedPull db u cp).length < fuel →
      (pullTraceAux db u bs fuel cp).flatten =
          (sortedPull db u cp).map decodeRow ∧
        (pullTraceAux db u bs fuel cp).getLast? = some [] := by
  intro fuel
  induction fuel with
  | zero => intro cp h; exact absurd h (Nat.not_lt_zero _)
  | succ fuel ih =>
      intro cp hlen
      rw [pullTraceAux_succ]
      by_cases hS : sortedPull db u cp = []
      · have hq : pullQuery db u cp ((some bs).getD 10) = [] := by
          rw [pullQuery_eq_take, hS, List.take_nil]
        rw [handlePullRequest_eq, hq]
        simp [hS]
      · have hq : pullQuery db u cp ((some bs).getD 10) =
            (sortedPull db u cp).take bs := pullQuery_eq_take db u cp bs
        have hitems_ne : (sortedPull db u cp).take bs ≠ [] := by
          rw [Ne, List.take_eq_nil_iff]
          push_neg
          exact ⟨by omega, hS⟩
        obtain ⟨y, hy⟩ : ∃ y, ((sortedPull db u cp).take bs).getLast? = some y := by
          cases hg : ((sortedPull db u cp).take bs).getLast? with
          | none => exact absurd (List.getLast?_eq_none_iff.mp hg) hitems_ne
          | some y => exact ⟨y, rfl⟩
        rw [handlePullRequest_eq, hq, hy]
        have hdocs_ne : ((sortedPull db u cp).take bs).map decodeRow ≠ [] := by
          simpa using hitems_ne
        rw [if_neg (by simpa [List.isEmpty_iff] using hdocs_ne)]
        have hadv := sortedPull_advance db u cp bs hd hy
        have hlen2 : (sortedPull db u (some ⟨y.id, y.serverTimestamp⟩)).length < fuel := by
          rw [hadv, List.length_drop]
          have hpos : 0 < (sortedPull db u cp).length := List.length_pos.mpr hS
          omega
        have hrec := ih (some ⟨y.id, y.serverTimestamp⟩) hlen2
        constructor
        · rw [List.flatten_cons, hrec.1, hadv, ← List.map_append,
            List.take_append_drop]
        · have hrest_ne : pullTraceAux db u bs fuel (some ⟨y.id, y.serverTimestamp⟩) ≠ [] := by
            intro hnil
            rw [hnil] at hrec
            exact Option.noConfusion hrec.2
          cases hrest : pullTraceAux db u bs fuel (some ⟨y.id, y.serverTimestamp⟩) with
          | nil => exact absurd hrest hrest_ne
          | cons b l =>
              rw [List.getLast?_cons_cons]
              rw [hrest] at hrec
              exact hrec.2

/-- C3: for every owner and every positive batch size, repeatedly pulling
— starting with no checkpoint and feeding each returned checkpoint into
the next pull — delivers in total exactly the decoded, (serverTimestamp,
identity)-sorted list of the owner's rows (a permutation of the owner's
rows, so each row is visited exactly once) and terminates with an empty
document batch. -/
theorem C3_pull_visits_every_row_once (db : List (Row Ident)) (u : String)
    (bs : Nat) (hbs : 0 < bs) (hd : distinctIds (ownerRows db u)) :
    (pullTrace db u bs).flatten =
        (List.insertionSort rowLe (ownerRows db u)).map decodeRow ∧
      (pullTrace db u bs).getLast? = some [] ∧
      (List.insertionSort rowLe (ownerRows db u)).Perm (ownerRows db u) := by
  have hnone : sortedPull db u none = List.insertionSort rowLe (ownerRows db u) := by
    unfold sortedPull ownerRows
    simp [matchesCp]
  have hlen : (sortedPull db u none).length < db.length + 1 := by
    have h1 := (sortedPull_perm db u none).length_eq
    have h2 := List.length_filter_le
      (fun r : Row Ident => r.userId == u && matchesCp none r) db
    omega
  have hspec := pullTraceAux_spec db u bs hbs hd (db.length + 1) none hlen
  unfold pullTrace
  exact ⟨by rw [hspec.1, hnone], hspec.2, List.perm_insertionSort _ _⟩

theorem C3_witness :
    (pullTrace ([⟨2, "Y", "u", 1, false⟩, ⟨1, "X", "u", 1, false⟩] : List (Row Nat))
        "u" 1).flatten =
        (List.insertionSort rowLe
          (ownerRows ([⟨2, "Y", "u", 1, false⟩, ⟨1, "X", "u", 1, false⟩] : List (Row Nat))
            "u")).map decodeRow ∧
      (pullTrace ([⟨2, "Y", "u", 1, false⟩, ⟨1, "X", "u", 1, false⟩] : List (Row Nat))
        "u" 1).getLast? = some [] ∧
      (List.insertionSort rowLe
        (ownerRows ([⟨2, "Y", "u", 1, false⟩, ⟨1, "X", "u", 1, false⟩] : List (Row Nat))
          "u")).Perm
        (ownerRows ([⟨2, "Y", "u", 1, false⟩, ⟨1, "X", "u", 1, false⟩] : List (Row Nat)) "u") :=
  C3_pull_visits_every_row_once [⟨2, "Y", "u", 1, false⟩, ⟨1, "X", "u", 1, false⟩]
    "u" 1 (by decide) (by unfold distinctIds ownerRows; decide)

/-! ## Supporting lemmas about the push loop -/

lemma findUnique_key {db : List (Row Ident)} {uq : String} {iq : Ident}
    {item : Row Ident} (h : findUnique db uq iq = some item) :
    item.userId = uq ∧ item.id = iq := by
  have hp := List.find?_some
    (show List.find? (fun r : Row Ident => r.userId == uq && r.id == iq) db =
      some item from h)
  obtain ⟨h1, h2⟩ := (Bool.and_eq_true _ _).mp hp
  exact ⟨eq_of_beq h1, eq_of_beq h2⟩

lemma findUnique_mem {db : List (Row Ident)} {uq : String} {iq : Ident}
    {item : Row Ident} (h : findUnique db uq iq = some item) : item ∈ db :=
  List.mem_of_find?_eq_some
    (show List.find? (fun r : Row Ident => r.userId == uq && r.id == iq) db =
      some item from h)

lemma softDelete_map_preserves_key (u : String) (id : Ident) (now : Nat) :
    ∀ r : Row Ident,
      ((if r.userId == u && r.id == id then
          { r with deleted := true, serverTimestamp := now } else r).userId = r.userId ∧
       (if r.userId == u && r.id == id then
          { r with deleted := true, serverTimestamp := now } else r).id = r.id) := by
  intro r
  split <;> exact ⟨rfl, rfl⟩

lemma applyIntent_cases (u : String) (now : Nat) (db : List (Row Ident))
    (found : Bool) (d : WireDoc Ident) :
    applyIntent u now db found d = db ∨
      applyIntent u now db found d = softDeleteUpdate db u d.id now ∨
      applyIntent u now db found d = upsertRow db u d now := by
  unfold applyIntent
  by_cases h1 : d._deleted = true
  · rw [if_pos h1]
    cases found
    · left; rfl
    · right; left; rfl
  · rw [if_neg h1]
    right; right; rfl

/-- Every push step's database result is the old store, one soft delete on
the intent's key, or one upsert of the intent's new state. -/
lemma pushStep_db_cases (u : String) (now : Nat) (db : List (Row Ident))
    (cs : List (WireDoc Ident)) (r : PushRow Ident) :
    (pushStep u now db cs r).1 = db ∨
      (pushStep u now db cs r).1 =
        softDeleteUpdate db u r.newDocumentState.id now ∨
      (pushStep u now db cs r).1 = upsertRow db u r.newDocumentState now := by
  unfold pushStep
  cases hf : findUnique db u r.newDocumentState.id with
  | none =>
      cases ha : r.assumedMasterState <;>
        simpa using applyIntent_cases u now db false r.newDocumentState
  | some item =>
      cases ha : r.assumedMasterState with
      | none => simpa using applyIntent_cases u now db true r.newDocumentState
      | some a =>
          by_cases hc : (!deepCompare (decodeRow item) a) = true
          · simp [hc]
          · simpa [hc] using applyIntent_cases u now db true r.newDocumentState

/-- Every push step either leaves the conflict list alone or appends the
decoded stored row of the intent's key, leaving the store alone. -/
lemma pushStep_conflicts_cases (u : String) (now : Nat) (db : List (Row Ident))
    (cs : List (WireDoc Ident)) (r : PushRow Ident) :
    (pushStep u now db cs r).2 = cs ∨
      ∃ item, findUnique db u r.newDocumentState.id = some item ∧
        (pushStep u now db cs r).2 = cs ++ [decodeRow item] ∧
        (pushStep u now db cs r).1 = db := by
  unfold pushStep
  cases hf : findUnique db u r.newDocumentState.id with
  | none => cases ha : r.assumedMasterState <;> simp
  | some item =>
      cases ha : r.assumedMasterState with
      | none => simp
      | some a =>
          by_cases hc : (!deepCompare (decodeRow item) a) = true
          · right; exact ⟨item, rfl, by simp [hc], by simp [hc]⟩
          · simp [hc]

lemma softDeleteUpdate_frame (db : List (Row Ident)) (u : String) (id : Ident)
    (now : Nat) (uq : String) (iq : Ident) (h : ¬(uq = u ∧ iq = id)) :
    findUnique (softDeleteUpdate db u id now) uq iq = findUnique db uq iq := by
  unfold softDeleteUpdate
  rw [findUnique_map_overwrite db _ (softDelete_map_preserves_key u id now) uq iq]
  cases hq : findUnique db uq iq with
  | none => rfl
  | some item =>
      rw [Option.map_some']
      obtain ⟨hu, hi⟩ := findUnique_key hq
      have hcond : (item.userId == u && item.id == id) = false := by
        rw [Bool.and_eq_false_iff]
        by_cases h1 : uq = u
        · right
          rw [beq_eq_false_iff_ne, hi]
          exact fun he => h ⟨h1, he⟩
        · left
          rw [beq_eq_false_iff_ne, hu]
          exact h1
      rw [if_neg (by rw [hcond]; exact Bool.false_ne_true)]

lemma upsertRow_frame (db : List (Row Ident)) (u : String) (d : WireDoc Ident)
    (now : Nat) (uq : String) (iq : Ident) (h : ¬(uq = u ∧ iq = d.id)) :
    findUnique (upsertRow db u d now) uq iq = findUnique db uq iq := by
  unfold upsertRow
  by_cases hf : (findUnique db u d.id).isSome
  · rw [if_pos hf,
      findUnique_map_overwrite db _ (upsert_map_preserves_key u d now) uq iq]
    cases hq : findUnique db uq iq with
    | none => rfl
    | some item =>
        rw [Option.map_some']
        obtain ⟨hu, hi⟩ := findUnique_key hq
        have hcond : (item.userId == u && item.id == d.id) = false := by
          rw [Bool.and_eq_false_iff]
          by_cases h1 : uq = u
          · right
            rw [beq_eq_false_iff_ne, hi]
            exact fun he => h ⟨h1, he⟩
          · left
            rw [beq_eq_false_iff_ne, hu]
            exact h1
        rw [if_neg (by rw [hcond]; exact Bool.false_ne_true)]
  · rw [if_neg hf, findUnique_append]
    have hdata : findUnique [encodeDoc u d now] uq iq = none := by
      unfold findUnique encodeDoc
      simp only [List.find?_singleton]
      rw [if_neg]
      intro hc
      obtain ⟨h1, h2⟩ := (Bool.and_eq_true _ _).mp hc
      exact h ⟨(eq_of_beq h1).symm, (eq_of_beq h2).symm⟩
    rw [hdata, Option.or_none]

lemma pushStep_frame (u : String) (now : Nat) (db : List (Row Ident))
    (cs : List (WireDoc Ident)) (r : PushRow Ident) (uq : String) (iq : Ident)
    (h : ¬(uq = u ∧ iq = r.newDocumentState.id)) :
    findUnique (pushStep u now db cs r).1 uq iq = findUnique db uq iq := by
  rcases pushStep_db_cases u now db cs r with he | he | he <;> rw [he]
  · exact softDeleteUpdate_frame db u r.newDocumentState.id now uq iq h
  · exact upsertRow_frame db u r.newDocumentState now uq iq h

lemma pushLoop_cons (u : String) (now : Nat)
    (st : List (Row Ident) × List (WireDoc Ident)) (r : PushRow Ident)
    (rows : List (PushRow Ident)) :
    pushLoop u now st (r :: rows) =
      pushLoop u now (pushStep u now st.1 st.2 r) rows := rfl

lemma pushLoop_append (u : String) (now : Nat)
    (st : List (Row Ident) × List (WireDoc Ident))
    (rows1 rows2 : List (PushRow Ident)) :
    pushLoop u now st (rows1 ++ rows2) =
      pushLoop u now (pushLoop u now st rows1) rows2 :=
  List.foldl_append _ _ _ _

lemma pushLoop_frame (u : String) (now : Nat) (rows : List (PushRow Ident)) :
    ∀ (st : List (Row Ident) × List (WireDoc Ident)) (uq : String) (iq : Ident),
      (∀ r ∈ rows, ¬(uq = u ∧ iq = r.newDocumentState.id)) →
      findUnique (pushLoop u now st rows).1 uq iq = findUnique st.1 uq iq := by
  induction rows with
  | nil => intro st uq iq _; rfl
  | cons r rows ih =>
      intro st uq iq h
      rw [pushLoop_cons,
        ih _ uq iq (fun x hx => h x (List.mem_cons_of_mem _ hx))]
      exact pushStep_frame u now st.1 st.2 r uq iq (h r (List.mem_cons_self _ _))

lemma pushStep_conflicts_prefix (u : String) (now : Nat) (db : List (Row Ident))
    (cs : List (WireDoc Ident)) (r : PushRow Ident) :
    ∃ suf, (pushStep u now db cs r).2 = cs ++ suf := by
  rcases pushStep_conflicts_cases u now db cs r with h | ⟨item, _, h, _⟩
  · exact ⟨[], by rw [h, List.append_nil]⟩
  · exact ⟨[decodeRow item], h⟩

lemma pushLoop_conflicts_prefix (u : String) (now : Nat)
    (rows : List (PushRow Ident)) :
    ∀ st : List (Row Ident) × List (WireDoc Ident),
      ∃ suf, (pushLoop u now st rows).2 = st.2 ++ suf := by
  induction rows with
  | nil => intro st; exact ⟨[], (List.append_nil _).symm⟩
  | cons r rows ih =>
      intro st
      rw [pushLoop_cons]
      obtain ⟨s1, h1⟩ := pushStep_conflicts_prefix u now st.1 st.2 r
      obtain ⟨s2, h2⟩ := ih (pushStep u now st.1 st.2 r)
      exact ⟨s1 ++ s2, by rw [h2, h1, List.append_assoc]⟩

lemma pushStep_preserves_found (u : String) (now : Nat) (db : List (Row Ident))
    (cs : List (WireDoc Ident)) (r : PushRow Ident) (uq : String) (iq : Ident)
    (h : (findUnique db uq iq).isSome = true) :
    (findUnique (pushStep u now db cs r).1 uq iq).isSome = true := by
  rcases pushStep_db_cases u now db cs r with he | he | he <;> rw [he]
  · exact h
  · unfold softDeleteUpdate
    rw [findUnique_map_overwrite db _
      (softDelete_map_preserves_key u r.newDocumentState.id now) uq iq]
    rw [Option.isSome_map']
    exact h
  · unfold upsertRow
    split
    · rw [findUnique_map_overwrite db _
        (upsert_map_preserves_key u r.newDocumentState now) uq iq]
      rw [Option.isSome_map']
      exact h
    · rw [findUnique_append]
      obtain ⟨item, hitem⟩ := Option.isSome_iff_exists.mp h
      rw [hitem]
      rfl

lemma pushLoop_preserves_found (u : String) (now : Nat)
    (rows : List (PushRow Ident)) :
    ∀ (st : List (Row Ident) × List (WireDoc Ident)) (uq : String) (iq : Ident),
      (findUnique st.1 uq iq).isSome = true →
      (findUnique (pushLoop u now st rows).1 uq iq).isSome = true := by
  induction rows with
  | nil => intro st uq iq h; exact h
  | cons r rows ih =>
      intro st uq iq h
      rw [pushLoop_cons]
      exact ih _ uq iq (pushStep_preserves_found u now st.1 st.2 r uq iq h)

/-! ## C5: conflict detection and reporting -/

/-- C5 counterexample: with the row (owner "u", identity 1, payload "X")
stored, the batch [intent with assumed state "WRONG" (a conflict), intent
with no assumed state overwriting identity 1 with "Z"] satisfies the
claim's antecedent for the first intent and reports the conflict, yet the
stored row for identity 1 is changed by the push — refuting "the stored
row is left unchanged by the push" as stated. -/
theorem C5_counterexample :
    decodeRow (⟨1, "X", "u", 1, false⟩ : Row Nat) ∈
      (handlePushRequest "u" 5 ([⟨1, "X", "u", 1, false⟩] : List (Row Nat))
        [⟨⟨1, "Y", false⟩, some ⟨1, "WRONG", false⟩⟩, ⟨⟨1, "Z", false⟩, none⟩]).2 ∧
    findUnique (handlePushRequest "u" 5 ([⟨1, "X", "u", 1, false⟩] : List (Row Nat))
        [⟨⟨1, "Y", false⟩, some ⟨1, "WRONG", false⟩⟩, ⟨⟨1, "Z", false⟩, none⟩]).1
        "u" 1 ≠ some (⟨1, "X", "u", 1, false⟩ : Row Nat) := by
  decide

/-- A step whose intent finds a stored row that mismatches its assumed
state takes the conflict branch: the store is untouched and the decoded
stored row is appended to the conflicts. -/
lemma pushStep_conflict (u : String) (now : Nat) (db : List (Row Ident))
    (cs : List (WireDoc Ident)) (r : PushRow Ident) (item : Row Ident)
    (assumed : WireDoc Ident)
    (hstored : findUnique db u r.newDocumentState.id = some item)
    (hasm : r.assumedMasterState = some assumed)
    (hneq : deepCompare (decodeRow item) assumed = false) :
    pushStep u now db cs r = (db, cs ++ [decodeRow item]) := by
  unfold pushStep
  rw [hstored, hasm]
  simp [hneq]

/-- If every intent of the loop that targets the identity of the
conflicting intent `r` is `r` itself, the stored row at `r`'s key survives
the whole loop: same-identity steps take the conflict branch and never
write, and every other step is framed away from the key. -/
lemma pushLoop_conflict_frame (u : String) (now : Nat) (r : PushRow Ident)
    (item : Row Ident) (assumed : WireDoc Ident)
    (hasm : r.assumedMasterState = some assumed)
    (hneq : deepCompare (decodeRow item) assumed = false) :
    ∀ rows : List (PushRow Ident),
      (∀ x ∈ rows, x.newDocumentState.id = r.newDocumentState.id → x = r) →
      ∀ st : List (Row Ident) × List (WireDoc Ident),
        findUnique st.1 u r.newDocumentState.id = some item →
        findUnique (pushLoop u now st rows).1 u r.newDocumentState.id = some item := by
  intro rows
  induction rows with
  | nil => intro _ st h; exact h
  | cons x rows ih =>
      intro honly st h
      rw [pushLoop_cons]
      apply ih (fun y hy hid => honly y (List.mem_cons_of_mem _ hy) hid)
      by_cases hid : x.newDocumentState.id = r.newDocumentState.id
      · rw [honly x (List.mem_cons_self _ _) hid,
          pushStep_conflict u now st.1 st.2 r item assumed h hasm hneq]
        exact h
      · rw [pushStep_frame u now st.1 st.2 x u r.newDocumentState.id
          (fun hc => hid hc.2.symm)]
        exact h

/-- C5 (amended): if an intent supplies an assumed state and the stored row
for its (owner, identity) decodes to something else, the push response
contains that decoded stored row as a conflict, and — provided no other
intent of the batch targets the same identity — the stored row is unchanged
by the push (the conflicting intent itself never writes; only another
intent on the same identity can). -/
theorem C5_conflict_reported (u : String) (now : Nat) (db : List (Row Ident))
    (rows : List (PushRow Ident)) (r : PushRow Ident) (item : Row Ident)
    (assumed : WireDoc Ident)
    (hmem : r ∈ rows)
    (hasm : r.assumedMasterState = some assumed)
    (hstored : findUnique db u r.newDocumentState.id = some item)
    (hneq : deepCompare (decodeRow item) assumed = false)
    (honly : ∀ x ∈ rows,
      x.newDocumentState.id = r.newDocumentState.id → x = r) :
    decodeRow item ∈ (handlePushRequest u now db rows).2 ∧
      findUnique (handlePushRequest u now db rows).1 u
        r.newDocumentState.id = some item := by
  obtain ⟨pre, post, hsplit⟩ := List.append_of_mem hmem
  subst hsplit
  unfold handlePushRequest
  rw [pushLoop_append, pushLoop_cons]
  have honly_pre : ∀ x ∈ pre, x.newDocumentState.id = r.newDocumentState.id → x = r :=
    fun x hx => honly x (List.mem_append.mpr (Or.inl hx))
  have honly_post : ∀ x ∈ post, x.newDocumentState.id = r.newDocumentState.id → x = r :=
    fun x hx => honly x
      (List.mem_append.mpr (Or.inr (List.mem_cons_of_mem _ hx)))
  have hdb1 : findUnique (pushLoop u now (db, []) pre).1 u
      r.newDocumentState.id = some item :=
    pushLoop_conflict_frame u now r item assumed hasm hneq pre honly_pre
      (db, []) hstored
  rw [pushStep_conflict u now (pushLoop u now (db, []) pre).1
    (pushLoop u now (db, []) pre).2 r item assumed hdb1 hasm hneq]
  constructor
  · obtain ⟨suf, hsuf⟩ := pushLoop_conflicts_prefix u now post
      ((pushLoop u now (db, []) pre).1,
        (pushLoop u now (db, []) pre).2 ++ [decodeRow item])
    rw [hsuf]
    simp
  · exact pushLoop_conflict_frame u now r item assumed hasm hneq post honly_post
      ((pushLoop u now (db, []) pre).1,
        (pushLoop u now (db, []) pre).2 ++ [decodeRow item]) hdb1

theorem C5_witness :
    decodeRow (⟨1, "X", "u", 1, false⟩ : Row Nat) ∈
      (handlePushRequest "u" 5 ([⟨1, "X", "u", 1, false⟩] : List (Row Nat))
        [⟨⟨1, "Y", false⟩, some ⟨1, "WRONG", false⟩⟩,
          ⟨⟨2, "A", false⟩, none⟩, ⟨⟨2, "B", false⟩, none⟩]).2 ∧
      findUnique (handlePushRequest "u" 5 ([⟨1, "X", "u", 1, false⟩] : List (Row Nat))
        [⟨⟨1, "Y", false⟩, some ⟨1, "WRONG", false⟩⟩,
          ⟨⟨2, "A", false⟩, none⟩, ⟨⟨2, "B", false⟩, none⟩]).1 "u"
        (⟨⟨1, "Y", false⟩, some ⟨1, "WRONG", false⟩⟩ : PushRow Nat).newDocumentState.id =
        some (⟨1, "X", "u", 1, false⟩ : Row Nat) :=
  C5_conflict_reported "u" 5 [⟨1, "X", "u", 1, false⟩]
    [⟨⟨1, "Y", false⟩, some ⟨1, "WRONG", false⟩⟩,
      ⟨⟨2, "A", false⟩, none⟩, ⟨⟨2, "B", false⟩, none⟩]
    ⟨⟨1, "Y", false⟩, some ⟨1, "WRONG", false⟩⟩ ⟨1, "X", "u", 1, false⟩
    ⟨1, "WRONG", false⟩ (by decide) rfl (by decide) (by decide)
    (by decide)

/-! ## C6: tombstone durability -/

/-- C6: pushing never removes a row — any (owner, identity) present before
a push is present after it — and after an accepted tombstone push on an
existing row the stored row has `deleted = true` and the fresh
`serverTimestamp`, qualifies for every pull whose checkpoint predates the
deletion time (the pull condition never inspects the tombstone), decodes
with the wire tombstone flag true, and is among the documents of such a
pull whenever the qualifying rows fit the batch size. -/
theorem C6_tombstone_durability (db : List (Row Ident)) (u : String)
    (d : WireDoc Ident) (asm : Option (WireDoc Ident)) (now : Nat)
    (cp : Checkpoint Ident) (item : Row Ident)
    (hdel : d._deleted = true)
    (hfound : findUnique db u d.id = some item)
    (hacc : (handlePushRequest u now db [⟨d, asm⟩]).2 = [])
    (hcp : cp.serverTimestamp < now) :
    (∀ (rows : List (PushRow Ident)) (uq : String) (iq : Ident),
      (findUnique db uq iq).isSome = true →
      (findUnique (handlePushRequest u now db rows).1 uq iq).isSome = true) ∧
    ∃ item2,
      findUnique (handlePushRequest u now db [⟨d, asm⟩]).1 u d.id = some item2 ∧
      item2.deleted = true ∧
      item2.serverTimestamp = now ∧
      afterCheckpoint cp item2 = true ∧
      (decodeRow item2)._deleted = true ∧
      (∀ bs : Nat,
        (sortedPull (handlePushRequest u now db [⟨d, asm⟩]).1 u
          (some cp)).length ≤ bs →
        decodeRow item2 ∈
          (handlePullRequest (handlePushRequest u now db [⟨d, asm⟩]).1 u
            (some cp) (some bs)).documents) := by
  have hpush : handlePushRequest u now db [⟨d, asm⟩] =
      pushStep u now db [] ⟨d, asm⟩ := rfl
  have hstep : pushStep u now db [] (⟨d, asm⟩ : PushRow Ident) =
      (softDeleteUpdate db u d.id now, []) := by
    have hconf : (pushStep u now db [] (⟨d, asm⟩ : PushRow Ident)).2 = [] := by
      rw [← hpush]; exact hacc
    unfold pushStep at hconf ⊢
    dsimp only at hconf ⊢
    rw [hfound] at hconf ⊢
    cases asm with
    | none =>
        unfold applyIntent
        simp [hdel]
    | some a =>
        by_cases hc : (!deepCompare (decodeRow item) a) = true
        · simp [hc] at hconf
        · simp only [hc, Bool.false_eq_true, if_false]
          unfold applyIntent
          simp [hdel]
  rw [hpush, hstep]
  refine ⟨fun rows uq iq h =>
    pushLoop_preserves_found u now rows (db, []) uq iq h, ?_⟩
  have hkey := findUnique_key hfound
  have hcond : (item.userId == u && item.id == d.id) = true := by
    rw [Bool.and_eq_true, beq_iff_eq, beq_iff_eq]
    exact ⟨hkey.1, hkey.2⟩
  have hfind2 : findUnique (softDeleteUpdate db u d.id now) u d.id =
      some { item with deleted := true, serverTimestamp := now } := by
    unfold softDeleteUpdate
    rw [findUnique_map_overwrite db _ (softDelete_map_preserves_key u d.id now) u d.id,
      hfound, Option.map_some', if_pos hcond]
  refine ⟨{ item with deleted := true, serverTimestamp := now },
    hfind2, rfl, rfl, ?_, by simp [decodeRow], ?_⟩
  · rw [afterCheckpoint_iff]
    exact Or.inl hcp
  · intro bs hlenle
    have hmem2 : ({ item with deleted := true, serverTimestamp := now } : Row Ident) ∈
        softDeleteUpdate db u d.id now := findUnique_mem hfind2
    have hqual : (({ item with deleted := true, serverTimestamp := now } : Row Ident).userId == u &&
        matchesCp (some cp) { item with deleted := true, serverTimestamp := now }) = true := by
      rw [Bool.and_eq_true]
      constructor
      · rw [beq_iff_eq]; exact hkey.1
      · show afterCheckpoint cp _ = true
        rw [afterCheckpoint_iff]
        exact Or.inl hcp
    have hS : ({ item with deleted := true, serverTimestamp := now } : Row Ident) ∈
        sortedPull (softDeleteUpdate db u d.id now) u (some cp) :=
      (sortedPull_perm (softDeleteUpdate db u d.id now) u (some cp)).mem_iff.mpr
        (List.mem_filter.mpr ⟨hmem2, hqual⟩)
    rw [handlePullRequest_eq,
      pullQuery_eq_take (softDeleteUpdate db u d.id now) u (some cp) ((some bs).getD 10)]
    have htake : (sortedPull (softDeleteUpdate db u d.id now) u (some cp)).take
        ((some bs).getD 10) =
        sortedPull (softDeleteUpdate db u d.id now) u (some cp) :=
      List.take_of_length_le hlenle
    rw [htake]
    cases hg : (sortedPull (softDeleteUpdate db u d.id now) u (some cp)).getLast? with
    | none =>
        exact absurd (List.getLast?_eq_none_iff.mp hg) (List.ne_nil_of_mem hS)
    | some y =>
        dsimp only
        exact List.mem_map_of_mem decodeRow hS

theorem C6_witness :
    (∀ (rows : List (PushRow Nat)) (uq : String) (iq : Nat),
      (findUnique ([⟨1, "X", "u", 1, false⟩] : List (Row Nat)) uq iq).isSome = true →
      (findUnique (handlePushRequest "u" 5 ([⟨1, "X", "u", 1, false⟩] : List (Row Nat))
        rows).1 uq iq).isSome = true) ∧
    ∃ item2,
      findUnique (handlePushRequest "u" 5 ([⟨1, "X", "u", 1, false⟩] : List (Row Nat))
          [⟨⟨1, "X", true⟩, none⟩]).1 "u" 1 = some item2 ∧
      item2.deleted = true ∧
      item2.serverTimestamp = 5 ∧
      afterCheckpoint ⟨1, 1⟩ item2 = true ∧
      (decodeRow item2)._deleted = true ∧
      (∀ bs : Nat,
        (sortedPull (handlePushRequest "u" 5 ([⟨1, "X", "u", 1, false⟩] : List (Row Nat))
          [⟨⟨1, "X", true⟩, none⟩]).1 "u" (some ⟨1, 1⟩)).length ≤ bs →
        decodeRow item2 ∈
          (handlePullRequest (handlePushRequest "u" 5
              ([⟨1, "X", "u", 1, false⟩] : List (Row Nat)) [⟨⟨1, "X", true⟩, none⟩]).1
            "u" (some ⟨1, 1⟩) (some bs)).documents) :=
  C6_tombstone_durability [⟨1, "X", "u", 1, false⟩] "u" ⟨1, "X", true⟩ none 5
    ⟨1, 1⟩ ⟨1, "X", "u", 1, false⟩ rfl (by decide) (by decide) (by decide)

/-! ## C8: change-time monotonicity -/

/-- Invariant threaded through the push loop: every row of the evolving
store is an untouched original row or carries the push-time stamp, lookups
never lose change-time with respect to the original store, and all stamps
are bounded by the push time. -/
def pushInv (now : Nat) (db0 dbi : List (Row Ident)) : Prop :=
  (∀ r ∈ dbi, r ∈ db0 ∨ r.serverTimestamp = now) ∧
  (∀ (uq : String) (iq : Ident) (old cur : Row Ident),
      findUnique db0 uq iq = some old → findUnique dbi uq iq = some cur →
      old.serverTimestamp ≤ cur.serverTimestamp) ∧
  (∀ r ∈ dbi, r.serverTimestamp ≤ now) ∧
  (∀ r ∈ db0, r.serverTimestamp ≤ now)

lemma pushInv_softDelete (now : Nat) (db0 dbi : List (Row Ident)) (u : String)
    (id : Ident) (h : pushInv now db0 dbi) :
    pushInv now db0 (softDeleteUpdate dbi u id now) := by
  obtain ⟨h1, h2, h3, h4⟩ := h
  refine ⟨?_, ?_, ?_, h4⟩
  · intro r' hr'
    obtain ⟨r, hr, hfr⟩ := List.mem_map.mp hr'
    by_cases hc : (r.userId == u && r.id == id) = true
    · rw [if_pos hc] at hfr
      right; rw [← hfr]
    · rw [if_neg hc] at hfr
      rw [← hfr]; exact h1 r hr
  · intro uq iq old cur hold hcur
    unfold softDeleteUpdate at hcur
    rw [findUnique_map_overwrite dbi _
      (softDelete_map_preserves_key u id now) uq iq] at hcur
    cases hq : findUnique dbi uq iq with
    | none => rw [hq] at hcur; cases hcur
    | some mid =>
        rw [hq, Option.map_some'] at hcur
        have hle := h2 uq iq old mid hold hq
        have hts := h3 mid (findUnique_mem hq)
        have hcur2 := Option.some.inj hcur
        by_cases hc : (mid.userId == u && mid.id == id) = true
        · rw [if_pos hc] at hcur2
          rw [← hcur2]
          show old.serverTimestamp ≤ now
          omega
        · rw [if_neg hc] at hcur2
          rw [← hcur2]; exact hle
  · intro r' hr'
    obtain ⟨r, hr, hfr⟩ := List.mem_map.mp hr'
    by_cases hc : (r.userId == u && r.id == id) = true
    · rw [if_pos hc] at hfr
      rw [← hfr]
    · rw [if_neg hc] at hfr
      rw [← hfr]; exact h3 r hr

lemma pushInv_upsert (now : Nat) (db0 dbi : List (Row Ident)) (u : String)
    (d : WireDoc Ident) (h : pushInv now db0 dbi) :
    pushInv now db0 (upsertRow dbi u d now) := by
  obtain ⟨h1, h2, h3, h4⟩ := h
  unfold upsertRow
  by_cases hf : (findUnique dbi u d.id).isSome
  · rw [if_pos hf]
    refine ⟨?_, ?_, ?_, h4⟩
    · intro r' hr'
      obtain ⟨r, hr, hfr⟩ := List.mem_map.mp hr'
      by_cases hc : (r.userId == u && r.id == d.id) = true
      · rw [if_pos hc] at hfr
        right; rw [← hfr]; rfl
      · rw [if_neg hc] at hfr
        rw [← hfr]; exact h1 r hr
    · intro uq iq old cur hold hcur
      rw [findUnique_map_overwrite dbi _
        (upsert_map_preserves_key u d now) uq iq] at hcur
      cases hq : findUnique dbi uq iq with
      | none => rw [hq] at hcur; cases hcur
      | some mid =>
          rw [hq, Option.map_some'] at hcur
          have hle := h2 uq iq old mid hold hq
          have hts := h3 mid (findUnique_mem hq)
          have hcur2 := Option.some.inj hcur
          by_cases hc : (mid.userId == u && mid.id == d.id) = true
          · rw [if_pos hc] at hcur2
            rw [← hcur2]
            show old.serverTimestamp ≤ now
            omega
          · rw [if_neg hc] at hcur2
            rw [← hcur2]; exact hle
    · intro r' hr'
      obtain ⟨r, hr, hfr⟩ := List.mem_map.mp hr'
      by_cases hc : (r.userId == u && r.id == d.id) = true
      · rw [if_pos hc] at hfr
        rw [← hfr]; exact le_refl now
      · rw [if_neg hc] at hfr
        rw [← hfr]; exact h3 r hr
  · rw [if_neg hf]
    refine ⟨?_, ?_, ?_, h4⟩
    · intro r' hr'
      rcases List.mem_append.mp hr' with hr | hr
      · exact h1 r' hr
      · right
        rw [List.mem_singleton.mp hr]; rfl
    · intro uq iq old cur hold hcur
      rw [findUnique_append] at hcur
      cases hq : findUnique dbi uq iq with
      | some mid =>
          rw [hq] at hcur
          have : some mid = some cur := hcur
          rw [← Option.some.inj this]
          exact h2 uq iq old mid hold hq
      | none =>
          rw [hq] at hcur
          have hcur2 : findUnique [encodeDoc u d now] uq iq = some cur := hcur
          have hts_old := h4 old (findUnique_mem hold)
          have hmem := findUnique_mem hcur2
          have : cur = encodeDoc u d now := List.mem_singleton.mp hmem
          rw [this]
          exact hts_old
    · intro r' hr'
      rcases List.mem_append.mp hr' with hr | hr
      · exact h3 r' hr
      · rw [List.mem_singleton.mp hr]; exact le_refl now

lemma pushInv_step (u : String) (now : Nat) (db0 dbi : List (Row Ident))
    (cs : List (WireDoc Ident)) (r : PushRow Ident) (h : pushInv now db0 dbi) :
    pushInv now db0 (pushStep u now dbi cs r).1 := by
  rcases pushStep_db_cases u now dbi cs r with he | he | he <;> rw [he]
  · exact h
  · exact pushInv_softDelete now db0 dbi u r.newDocumentState.id h
  · exact pushInv_upsert now db0 dbi u r.newDocumentState h

lemma pushInv_loop (u : String) (now : Nat) (db0 : List (Row Ident))
    (rows : List (PushRow Ident)) :
    ∀ (dbi : List (Row Ident)) (cs : List (WireDoc Ident)),
      pushInv now db0 dbi → pushInv now db0 (pushLoop u now (dbi, cs) rows).1 := by
  induction rows with
  | nil => intro dbi cs h; exact h
  | cons r rows ih =>
      intro dbi cs h
      rw [pushLoop_cons]
      exact ih (pushStep u now dbi cs r).1 (pushStep u now dbi cs r).2
        (pushInv_step u now db0 dbi cs r h)

/-- C8: provided the push-time clock reading is no earlier than every
stored change-time (a monotone server clock), every row after a push is an
untouched original row or carries the push time as its change-time — every
accepted write stamps the row — and for every (owner, identity) the stored
change-time after the push is never earlier than before it. -/
theorem C8_changeTime_monotone (u : String) (now : Nat) (db : List (Row Ident))
    (rows : List (PushRow Ident))
    (hclock : ∀ r ∈ db, r.serverTimestamp ≤ now) :
    (∀ r' ∈ (handlePushRequest u now db rows).1,
        r' ∈ db ∨ r'.serverTimestamp = now) ∧
      (∀ (uq : String) (iq : Ident) (old cur : Row Ident),
        findUnique db uq iq = some old →
        findUnique (handlePushRequest u now db rows).1 uq iq = some cur →
        old.serverTimestamp ≤ cur.serverTimestamp) := by
  have hbase : pushInv now db db := by
    refine ⟨fun r hr => Or.inl hr, ?_, hclock, hclock⟩
    intro uq iq old cur h1 h2
    rw [h1] at h2
    rw [← Option.some.inj h2]
  have h := pushInv_loop u now db rows db [] hbase
  exact ⟨h.1, h.2.1⟩

theorem C8_witness :
    (∀ r' ∈ (handlePushRequest "u" 5 ([⟨1, "X", "u", 1, false⟩] : List (Row Nat))
        [⟨⟨1, "Y", false⟩, none⟩, ⟨⟨2, "Z", true⟩, none⟩]).1,
        r' ∈ ([⟨1, "X", "u", 1, false⟩] : List (Row Nat)) ∨ r'.serverTimestamp = 5) ∧
      (∀ (uq : String) (iq : Nat) (old cur : Row Nat),
        findUnique ([⟨1, "X", "u", 1, false⟩] : List (Row Nat)) uq iq = some old →
        findUnique (handlePushRequest "u" 5 ([⟨1, "X", "u", 1, false⟩] : List (Row Nat))
          [⟨⟨1, "Y", false⟩, none⟩, ⟨⟨2, "Z", true⟩, none⟩]).1 uq iq = some cur →
        old.serverTimestamp ≤ cur.serverTimestamp) :=
  C8_changeTime_monotone "u" 5 [⟨1, "X", "u", 1, false⟩]
    [⟨⟨1, "Y", false⟩, none⟩, ⟨⟨2, "Z", true⟩, none⟩] (by decide)

end PlannerReplication
